import Mathlib

/-!
# ECC memory manager (`main.c`): shallow embedding and verified properties

Modelling conventions.

* `uint8_t` values are natural numbers; every store into a `uint8_t` object is
  reduced `% 256` where the C expression could leave the byte range.
* `int` values are integers (`Int`); the places where C would overflow or
  convert a negative length are reported as undefined behaviour.
* The three arrays of `MemoryManager` and the caller's byte buffers are maps
  from an element index to the byte stored there.  Every access the code makes
  to the arrays of `MemoryManager` is guarded in the source; the caller's
  buffers are assumed to hold at least `size` bytes, as the C prototype does.
* The four-element local array `bits` is a list, so that an access past its
  end is visible.  It is declared without an initialiser inside the loop body
  and keeps its storage from one iteration to the next: an element that an
  iteration does not assign still holds what the previous iteration left
  there.  So the loops pass the array on from iteration to iteration.  Only
  before the first iteration of a call are its contents indeterminate; they
  are supplied by the parameter `uninit` (`uninit j` is the byte found in
  `bits[j]` when the call enters its loop).
* A result `none` stands for undefined behaviour of the C program.
-/

namespace ECC

/-! ## Constants and state -/

/-- Capacity of the protected buffer in bytes (`#define DATA_SIZE 4096`). -/
def DATA_SIZE : Nat := 4096

/-- Number of check-code slots (`#define ECC_SIZE ((DATA_SIZE * 8 + 6) / 7)`). -/
def ECC_SIZE : Nat := (DATA_SIZE * 8 + 6) / 7

/-- Largest value of a 32-bit `int`. -/
def INT_MAX : Int := 2147483647

/-- The `MemoryManager` struct: data bytes, check codes and allocation bitmap. -/
structure MemoryManager where
  data : Nat → Nat
  ecc : Nat → Nat
  bitmap : Nat → Nat

/-- Array store `a[k] = v`. -/
def upd (a : Nat → Nat) (k v : Nat) : Nat → Nat :=
  fun x => if x = k then v else a x

/-- The region produced by `memset(mm, 0, sizeof(MemoryManager))` in `main`. -/
def zero_region : MemoryManager :=
  { data := fun _ => 0, ecc := fun _ => 0, bitmap := fun _ => 0 }

/-! ## Parity and the codec -/

/-- The function `parity`: three shift-and-xor folds on a `uint8_t`, then `& 1`. -/
def parity (x : Nat) : Nat :=
  let x1 := (x ^^^ (x >>> 4)) % 256
  let x2 := (x1 ^^^ (x1 >>> 2)) % 256
  let x3 := (x2 ^^^ (x2 >>> 1)) % 256
  x3 &&& 1

/-- The function `ec_calculate`: the byte stored through `ecc`.  Reading
`data[0..3]` needs an array of at least four elements. -/
def ec_calculate (data : List Nat) : Option Nat :=
  match data with
  | d0 :: d1 :: d2 :: d3 :: _ =>
    let p1 := (parity (d0 &&& 1) ^^^ parity (d1 &&& 1) ^^^ parity (d3 &&& 1)) % 256
    let p2 := (parity (d0 &&& 1) ^^^ parity (d2 &&& 1) ^^^ parity (d3 &&& 1)) % 256
    let p3 := (parity (d1 &&& 1) ^^^ parity (d2 &&& 1) ^^^ parity (d3 &&& 1)) % 256
    some (((p1 <<< 2) ||| (p2 <<< 1) ||| p3) % 256)
  | _ => none

/-- Outcome of one call of `ecc_check_and_correct`: the array behind `data`
after the call, the byte behind `ecc` after the call, and the value of the
local variable `syndrome`. -/
structure Checked where
  data : List Nat
  ecc : Nat
  syndrome : Nat
deriving DecidableEq, Repr

/-- The function `ecc_check_and_correct`.  For a nonzero syndrome it executes
`data[syndrome - 1] ^= 0x01` without any bound on `syndrome - 1`; when that
index is not inside the array behind `data` the access is undefined. -/
def ecc_check_and_correct (data : List Nat) (ecc : Nat) : Option Checked :=
  match data with
  | d0 :: d1 :: d2 :: d3 :: _ =>
    let p1 := (parity (d0 &&& 1) ^^^ parity (d1 &&& 1) ^^^ parity (d3 &&& 1)
      ^^^ ((ecc >>> 2) &&& 1)) % 256
    let p2 := (parity (d0 &&& 1) ^^^ parity (d2 &&& 1) ^^^ parity (d3 &&& 1)
      ^^^ ((ecc >>> 1) &&& 1)) % 256
    let p3 := (parity (d1 &&& 1) ^^^ parity (d2 &&& 1) ^^^ parity (d3 &&& 1)
      ^^^ (ecc &&& 1)) % 256
    let syndrome := ((p1 <<< 2) ||| (p2 <<< 1) ||| p3) % 256
    if syndrome ≠ 0 then
      if syndrome - 1 < data.length then
        some ⟨data.set (syndrome - 1) ((data.getD (syndrome - 1) 0 ^^^ 1) % 256), ecc, syndrome⟩
      else none
    else some ⟨data, ecc, syndrome⟩
  | _ => none

/-! ## Block allocator -/

/-- The loop of `ecc_allocate`: `n` iterations are left and the loop variable
is `i` (so `n = DATA_SIZE / 4 - i`).  Falling out of the loop returns `-1`. -/
def ecc_allocate_loop (mm : MemoryManager) : Nat → Nat → MemoryManager × Int
  | 0, _ => (mm, -1)
  | n + 1, i =>
    if mm.bitmap i = 0 then
      ({ mm with bitmap := upd mm.bitmap i 1 }, ((i * 4 : Nat) : Int))
    else ecc_allocate_loop mm n (i + 1)

/-- The function `ecc_allocate`: the state after the call and the returned `int`. -/
def ecc_allocate (mm : MemoryManager) : MemoryManager × Int :=
  ecc_allocate_loop mm (DATA_SIZE / 4) 0

/-- The function `ecc_deallocate`.  The division `index / 4` is only evaluated
after `index >= 0` has been established. -/
def ecc_deallocate (mm : MemoryManager) (index : Int) : MemoryManager :=
  if 0 ≤ index ∧ index < (DATA_SIZE : Int) ∧ mm.bitmap (index.toNat / 4) = 1 then
    { mm with bitmap := upd mm.bitmap (index.toNat / 4) 0 }
  else mm

/-! ## Bit gathering shared by `ecc_write` and `ecc_read` -/

/-- The inner loop `for (j = 0; j < 4; j++)` that fills `bits` from `data`:
`js` lists the values of `j` still to run; `bit_pos >= size * 8` leaves the
loop, and the remaining elements of `bits` keep what they held. -/
def gather_bits (data : Nat → Nat) (size i : Nat) : List Nat → List Nat → List Nat
  | [], bits => bits
  | j :: js, bits =>
    let bit_pos := i + j
    if bit_pos ≥ size * 8 then bits
    else gather_bits data size i js
      (bits.set j ((data (bit_pos / 8) >>> (bit_pos % 8)) &&& 1))

/-- The array `bits` as the first iteration of a call finds it. -/
def fresh_bits (uninit : Nat → Nat) : List Nat :=
  [uninit 0 % 256, uninit 1 % 256, uninit 2 % 256, uninit 3 % 256]

/-- The second inner loop of `ecc_read`, which stores `bits[j]` back into bit
`bit_pos % 8` of `data[bit_pos / 8]`.  The mask `~(0x01 << k)` is an `int`. -/
def scatter_bits (bits : List Nat) (size i : Nat) : List Nat → (Nat → Nat) → (Nat → Nat)
  | [], data => data
  | j :: js, data =>
    let bit_pos := i + j
    if bit_pos ≥ size * 8 then data
    else scatter_bits bits size i js
      (upd data (bit_pos / 8)
        (((data (bit_pos / 8) &&& (0xFFFFFFFF ^^^ (0x01 <<< (bit_pos % 8))))
          ||| (bits.getD j 0 <<< (bit_pos % 8))) % 256))

/-! ## Writing -/

/-- The outer loop of `ecc_write`: `n` iterations are left, the loop variable
is `i` and advances by 7, and `held` is the array `bits` as the previous
iteration left it; `ecc_index >= ECC_SIZE` leaves the loop. -/
def ecc_write_loop (index : Nat) (data : Nat → Nat) (size : Nat) :
    Nat → Nat → List Nat → MemoryManager → Option MemoryManager
  | 0, _, _, mm => some mm
  | n + 1, i, held, mm =>
    let ecc_index := (index * 8 + i) / 7
    if ecc_index ≥ ECC_SIZE then some mm
    else
      let bits := gather_bits data size i [0, 1, 2, 3] held
      match ec_calculate bits with
      | none => none
      | some c =>
        ecc_write_loop index data size n (i + 7) bits { mm with ecc := upd mm.ecc ecc_index c }

/-- The function `ecc_write`.  `index + size` is only evaluated when `index` is
not negative; a sum above `INT_MAX` is a signed overflow, and a negative `size`
that passes the range test reaches `memcpy` as a huge `size_t`. -/
def ecc_write (mm : MemoryManager) (index : Int) (data : Nat → Nat) (size : Int)
    (uninit : Nat → Nat) : Option MemoryManager :=
  if index < 0 then some mm
  else if index + size > INT_MAX then none
  else if index + size > (DATA_SIZE : Int) then some mm
  else if size < 0 then none
  else
    let mm1 : MemoryManager :=
      { mm with data := fun a =>
          if index.toNat ≤ a ∧ a < index.toNat + size.toNat then data (a - index.toNat)
          else mm.data a }
    ecc_write_loop index.toNat data size.toNat ((size.toNat * 8 + 6) / 7) 0
      (fresh_bits uninit) mm1

/-! ## Reading -/

/-- What a call of `ecc_read` leaves behind: the region, the caller's buffer,
and the value of `syndrome` in each call of `ecc_check_and_correct`, in order
(a nonzero entry `s` is the console line "Error corrected at bit position s-1"). -/
structure ReadResult where
  mm : MemoryManager
  data : Nat → Nat
  syndromes : List Nat

/-- The outer loop of `ecc_read`: `n` iterations are left, the loop variable is
`i`, and `held` is the array `bits` as the previous iteration left it (after
its correction).  The bits are taken from the caller's buffer `data`, checked
against `mm->ecc[ecc_index]`, and stored back into `data`. -/
def ecc_read_loop (index size : Nat) :
    Nat → Nat → List Nat → ReadResult → Option ReadResult
  | 0, _, _, st => some st
  | n + 1, i, held, st =>
    let ecc_index := (index * 8 + i) / 7
    if ecc_index ≥ ECC_SIZE then some st
    else
      let bits := gather_bits st.data size i [0, 1, 2, 3] held
      match ecc_check_and_correct bits (st.mm.ecc ecc_index) with
      | none => none
      | some r =>
        ecc_read_loop index size n (i + 7) r.data
          { mm := { st.mm with ecc := upd st.mm.ecc ecc_index r.ecc }
            data := scatter_bits r.data size i [0, 1, 2, 3] st.data
            syndromes := st.syndromes ++ [r.syndrome] }

/-- The function `ecc_read`; `data` is the caller's output buffer. -/
def ecc_read (mm : MemoryManager) (index : Int) (data : Nat → Nat) (size : Int)
    (uninit : Nat → Nat) : Option ReadResult :=
  if index < 0 then some ⟨mm, data, []⟩
  else if index + size > INT_MAX then none
  else if index + size > (DATA_SIZE : Int) then some ⟨mm, data, []⟩
  else if size < 0 then none
  else
    let data1 : Nat → Nat := fun k =>
      if k < size.toNat then mm.data (index.toNat + k) else data k
    ecc_read_loop index.toNat size.toNat ((size.toNat * 8 + 6) / 7) 0 (fresh_bits uninit)
      ⟨mm, data1, []⟩

/-- The fault injection of `main` (`mm->data[a] ^= 0x01`), for any bit `k` of the byte. -/
def flip_data_bit (mm : MemoryManager) (a k : Nat) : MemoryManager :=
  { mm with data := upd mm.data a ((mm.data a ^^^ (0x01 <<< k)) % 256) }

/-- The first `n` bytes of a buffer. -/
def bytes (buf : Nat → Nat) (n : Nat) : List Nat :=
  (List.range n).map buf

/-- A buffer holding the given bytes (zero elsewhere). -/
def buffer (l : List Nat) : Nat → Nat :=
  fun k => l.getD k 0

/-! ## Call sequences of the allocator -/

/-- The values returned by `k` consecutive calls of `ecc_allocate`, in call
order, and the state after the last call. -/
def ecc_allocate_seq : Nat → MemoryManager → List Int × MemoryManager
  | 0, mm => ([], mm)
  | k + 1, mm =>
    let r := ecc_allocate mm
    let rest := ecc_allocate_seq k r.1
    (r.2 :: rest.1, rest.2)

/-- States reachable from a region whose bitmap is all zero by calls of
`ecc_allocate` and `ecc_deallocate` (with any argument). -/
inductive Reachable : MemoryManager → Prop
  | init (mm : MemoryManager) : (∀ i, i < DATA_SIZE / 4 → mm.bitmap i = 0) → Reachable mm
  | allocate {mm : MemoryManager} : Reachable mm → Reachable (ecc_allocate mm).1
  | deallocate {mm : MemoryManager} (index : Int) : Reachable mm → Reachable (ecc_deallocate mm index)

/-! ## Scenarios and auxiliary notions -/

/-- Bit `b` of a byte buffer, counted as the code does: bit `b % 8` of byte `b / 8`. -/
def data_bit (data : Nat → Nat) (b : Nat) : Nat :=
  (data (b / 8) >>> (b % 8)) &&& 1

/-- What the caller observes of a read: the first `size` bytes of the buffer and
the syndromes of the groups. -/
def read_view (size : Nat) (r : ReadResult) : List Nat × List Nat :=
  (bytes r.data size, r.syndromes)

/-- The sequence `ecc_write(mm, index, p, size); ecc_read(mm, index, out, size)`. -/
def write_read (mm : MemoryManager) (index : Int) (p : Nat → Nat) (size : Int)
    (out : Nat → Nat) (uninit_w uninit_r : Nat → Nat) : Option (List Nat × List Nat) :=
  (ecc_write mm index p size uninit_w).bind fun mm1 =>
    (ecc_read mm1 index out size uninit_r).map (read_view size.toNat)

/-- The sequence of `main`: `ecc_write`, then bit `k` of `mm->data[a]` is
flipped, then `ecc_read`. -/
def write_flip_read (mm : MemoryManager) (index : Int) (p : Nat → Nat) (size : Int)
    (a k : Nat) (out : Nat → Nat) (uninit_w uninit_r : Nat → Nat) :
    Option (List Nat × List Nat) :=
  (ecc_write mm index p size uninit_w).bind fun mm1 =>
    (ecc_read (flip_data_bit mm1 a k) index out size uninit_r).map (read_view size.toNat)

/-- The array `bits` after `n` more iterations of the gathering loop on the
buffer `data`, when the iteration of group `g` (loop variable `7 * g`) found
it as `held` and no iteration changed it after gathering. -/
def carried_bits (data : Nat → Nat) (size : Nat) : Nat → Nat → List Nat → List Nat
  | _, 0, held => held
  | g, n + 1, held =>
    carried_bits data size (g + 1) n (gather_bits data size (7 * g) [0, 1, 2, 3] held)

/-- The byte `ecc_write` stores for group `g` of the payload (the group that
starts at bit `7 * g`). -/
def group_code (data : Nat → Nat) (size : Nat) (uninit : Nat → Nat) (g : Nat) : Nat :=
  (ec_calculate (carried_bits data size 0 (g + 1) (fresh_bits uninit))).getD 0

/-! ## Notions used to state the properties of the codec and of the slots -/

/-- The value of the local variable `syndrome` of `ecc_check_and_correct`
(the three parity lines and the packing line of the source), before the
correction is attempted. -/
def ecc_syndrome (data : List Nat) (ecc : Nat) : Option Nat :=
  match data with
  | d0 :: d1 :: d2 :: d3 :: _ =>
    let p1 := (parity (d0 &&& 1) ^^^ parity (d1 &&& 1) ^^^ parity (d3 &&& 1)
      ^^^ ((ecc >>> 2) &&& 1)) % 256
    let p2 := (parity (d0 &&& 1) ^^^ parity (d2 &&& 1) ^^^ parity (d3 &&& 1)
      ^^^ ((ecc >>> 1) &&& 1)) % 256
    let p3 := (parity (d1 &&& 1) ^^^ parity (d2 &&& 1) ^^^ parity (d3 &&& 1)
      ^^^ (ecc &&& 1)) % 256
    some (((p1 <<< 2) ||| (p2 <<< 1) ||| p3) % 256)
  | _ => none

/-- The check code as the specification writes it, on four bit values:
`p1 = d0 XOR d1 XOR d3`, `p2 = d0 XOR d2 XOR d3`, `p3 = d1 XOR d2 XOR d3`,
`c = p1<<2 | p2<<1 | p3`. -/
def spec_encode (d0 d1 d2 d3 : Nat) : Nat :=
  ((d0 ^^^ d1 ^^^ d3) <<< 2) ||| ((d0 ^^^ d2 ^^^ d3) <<< 1) ||| (d1 ^^^ d2 ^^^ d3)

/-- The XOR of the eight bits of a byte, which is how the specification
describes `parity`. -/
def spec_parity (x : Nat) : Nat :=
  ((x >>> 0) &&& 1) ^^^ ((x >>> 1) &&& 1) ^^^ ((x >>> 2) &&& 1) ^^^ ((x >>> 3) &&& 1) ^^^
  ((x >>> 4) &&& 1) ^^^ ((x >>> 5) &&& 1) ^^^ ((x >>> 6) &&& 1) ^^^ ((x >>> 7) &&& 1)

/-- A group with the bit of element `j` flipped. -/
def flip_at (d : List Nat) (j : Nat) : List Nat :=
  d.set j (d.getD j 0 ^^^ 1)

/-- The sequence `ecc_write(mm, i1, p, s1); ecc_write(mm, i2, q, s2);
ecc_read(mm, i1, out, s1)`. -/
def write_write_read (mm : MemoryManager) (i1 : Int) (p : Nat → Nat) (s1 : Int)
    (i2 : Int) (q : Nat → Nat) (s2 : Int) (out : Nat → Nat)
    (uninit_1 uninit_2 uninit_r : Nat → Nat) : Option (List Nat × List Nat) :=
  (ecc_write mm i1 p s1 uninit_1).bind fun m1 =>
    (ecc_write m1 i2 q s2 uninit_2).bind fun m2 =>
      (ecc_read m2 i1 out s1 uninit_r).map (read_view s1.toNat)

end ECC

namespace ECC

/-! ## Basic facts about array stores -/

theorem upd_same (a : Nat → Nat) (k v : Nat) : upd a k v k = v := by
  simp [upd]

theorem upd_other (a : Nat → Nat) (k v x : Nat) (h : x ≠ k) : upd a k v x = a x := by
  simp [upd, h]

theorem upd_self (a : Nat → Nat) (k : Nat) : upd a k (a k) = a := by
  funext x
  by_cases h : x = k
  · subst h; simp [upd]
  · simp [upd, h]

/-! ## Trip counts of the loops -/

/-- The loop `for (i = 0; i < size * 8; i += 7)` runs for `i = 7 * g` with
`g < (size * 8 + 6) / 7` and for no other value. -/
theorem group_count_spec (size g : Nat) : g < (size * 8 + 6) / 7 ↔ 7 * g < size * 8 := by
  omega

theorem block_count : DATA_SIZE / 4 = 1024 ∧ ECC_SIZE = 4682 := by
  decide

/-! ## Allocator loop -/

theorem ecc_allocate_loop_found (mm : MemoryManager) :
    ∀ (n s i : Nat), s ≤ i → i < s + n → mm.bitmap i = 0 →
      (∀ j, s ≤ j → j < i → mm.bitmap j ≠ 0) →
      ecc_allocate_loop mm n s = ({ mm with bitmap := upd mm.bitmap i 1 }, ((i * 4 : Nat) : Int)) := by
  intro n
  induction n with
  | zero => intro s i h1 h2; omega
  | succ n ih =>
    intro s i h1 h2 hz hnz
    by_cases hs : mm.bitmap s = 0
    · have hi : i = s := by
        by_contra hne
        exact hnz s (le_refl s) (by omega) hs
      subst hi
      simp [ecc_allocate_loop, hs]
    · have hne : i ≠ s := fun h => hs (h ▸ hz)
      simp only [ecc_allocate_loop, hs, if_false]
      exact ih (s + 1) i (by omega) (by omega) hz (fun j hj1 hj2 => hnz j (by omega) hj2)

theorem ecc_allocate_loop_full (mm : MemoryManager) :
    ∀ (n s : Nat), (∀ j, s ≤ j → j < s + n → mm.bitmap j ≠ 0) →
      ecc_allocate_loop mm n s = (mm, -1) := by
  intro n
  induction n with
  | zero => intro s _; rfl
  | succ n ih =>
    intro s h
    have hs : mm.bitmap s ≠ 0 := h s (le_refl s) (by omega)
    simp only [ecc_allocate_loop, hs, if_false]
    exact ih (s + 1) (fun j hj1 hj2 => h j (by omega) (by omega))

theorem ecc_allocate_loop_exhausted (mm : MemoryManager) :
    ∀ (n s : Nat), (ecc_allocate_loop mm n s).2 = -1 →
      ∀ j, s ≤ j → j < s + n → mm.bitmap j ≠ 0 := by
  intro n
  induction n with
  | zero => intro s _ j h1 h2; omega
  | succ n ih =>
    intro s h j hj1 hj2
    by_cases hs : mm.bitmap s = 0
    · simp only [ecc_allocate_loop, hs, if_true] at h
      omega
    · simp only [ecc_allocate_loop, hs, if_false] at h
      by_cases hj : j = s
      · subst hj; exact hs
      · exact ih (s + 1) h j (by omega) (by omega)

/-! ## Properties of the codec and the allocator -/

/-- C4 (the code at the failing inputs): with stored code 4 the all-zero group
has syndrome 4 and its last element is flipped; the group 1,0,0,0 with stored
code 0 has syndrome 6, so the flipped element is `data[5]`, which does not exist
in a four-element group (on a seven-element array it is element 5 that changes). -/
theorem ecc_check_and_correct_high_syndrome :
    ecc_check_and_correct [0, 0, 0, 0] 4 = some ⟨[0, 0, 0, 1], 4, 4⟩ ∧
    ecc_check_and_correct [1, 0, 0, 0] 0 = none ∧
    ecc_check_and_correct [1, 0, 0, 0, 0, 0, 0] 0 = some ⟨[1, 0, 0, 0, 0, 1, 0], 0, 6⟩ := by
  decide

/-- C5: `ecc_allocate` is first-fit.  If `i` is the least index below 1024 whose
bitmap entry is 0, the call returns `4 * i` and the only change to the state is
`bitmap[i] = 1`; if no entry below 1024 is 0 it returns `-1` and the state is
unchanged; and it returns `-1` only in that case. -/
theorem ecc_allocate_first_fit (mm : MemoryManager) :
    (∀ i, i < DATA_SIZE / 4 → mm.bitmap i = 0 → (∀ j, j < i → mm.bitmap j ≠ 0) →
      (ecc_allocate mm).2 = 4 * (i : Int) ∧
      (ecc_allocate mm).1.bitmap i = 1 ∧
      (∀ j, j ≠ i → (ecc_allocate mm).1.bitmap j = mm.bitmap j) ∧
      (ecc_allocate mm).1.data = mm.data ∧ (ecc_allocate mm).1.ecc = mm.ecc) ∧
    ((∀ i, i < DATA_SIZE / 4 → mm.bitmap i ≠ 0) → ecc_allocate mm = (mm, -1)) ∧
    ((ecc_allocate mm).2 = -1 → ∀ i, i < DATA_SIZE / 4 → mm.bitmap i ≠ 0) := by
  refine ⟨?_, ?_, ?_⟩
  · intro i hi hz hnz
    have h := ecc_allocate_loop_found mm (DATA_SIZE / 4) 0 i (Nat.zero_le i) (by omega) hz
      (fun j _ hj => hnz j hj)
    unfold ecc_allocate
    rw [h]
    refine ⟨by push_cast; ring, upd_same _ _ _, ?_, rfl, rfl⟩
    intro j hj
    exact upd_other _ _ _ _ hj
  · intro h
    exact ecc_allocate_loop_full mm (DATA_SIZE / 4) 0 (fun j _ hj => h j (by omega))
  · intro h i hi
    exact ecc_allocate_loop_exhausted mm (DATA_SIZE / 4) 0 h i (Nat.zero_le i) (by omega)

/-- C5 at a concrete state: on the all-zero region the first block is granted. -/
theorem ecc_allocate_first_fit_witness :
    (ecc_allocate zero_region).2 = 4 * ((0 : Nat) : Int) ∧
    (ecc_allocate zero_region).1.bitmap 0 = 1 ∧
    (∀ j, j ≠ 0 → (ecc_allocate zero_region).1.bitmap j = zero_region.bitmap j) ∧
    (ecc_allocate zero_region).1.data = zero_region.data ∧
    (ecc_allocate zero_region).1.ecc = zero_region.ecc :=
  (ecc_allocate_first_fit zero_region).1 0 (by decide) rfl (fun j hj => absurd hj (Nat.not_lt_zero j))

/-- C8: `ecc_deallocate` with a negative index, an index of at least 4096, or an
index whose block is not marked 1 leaves the whole state unchanged. -/
theorem ecc_deallocate_invalid_noop (mm : MemoryManager) (index : Int)
    (h : index < 0 ∨ index ≥ 4096 ∨ mm.bitmap (index.toNat / 4) ≠ 1) :
    ecc_deallocate mm index = mm := by
  unfold ecc_deallocate
  rw [if_neg]
  rintro ⟨h0, h1, h2⟩
  simp only [DATA_SIZE] at h1
  rcases h with h | h | h
  · omega
  · omega
  · exact h h2

/-- C8 at a concrete state: freeing offset 8 of the all-zero region, whose block
was never allocated, changes nothing. -/
theorem ecc_deallocate_invalid_noop_witness : ecc_deallocate zero_region 8 = zero_region :=
  ecc_deallocate_invalid_noop zero_region 8 (Or.inr (Or.inr (by decide)))

/-- The effect of `ecc_deallocate` when its guard holds. -/
theorem ecc_deallocate_effect (mm : MemoryManager) (index : Int)
    (h0 : 0 ≤ index) (h1 : index < 4096) (hb : mm.bitmap (index.toNat / 4) = 1) :
    ecc_deallocate mm index = { mm with bitmap := upd mm.bitmap (index.toNat / 4) 0 } := by
  have hc : 0 ≤ index ∧ index < (DATA_SIZE : Int) ∧ mm.bitmap (index.toNat / 4) = 1 :=
    ⟨h0, by simpa [DATA_SIZE] using h1, hb⟩
  unfold ecc_deallocate
  rw [if_pos hc]

/-- C9: for `0 <= index < 4096` with `bitmap[index / 4] == 1`, aligned or not,
`ecc_deallocate` sets `bitmap[index / 4]` to 0 and changes nothing else. -/
theorem ecc_deallocate_valid (mm : MemoryManager) (index : Int)
    (h0 : 0 ≤ index) (h1 : index < 4096) (hb : mm.bitmap (index.toNat / 4) = 1) :
    (ecc_deallocate mm index).bitmap (index.toNat / 4) = 0 ∧
    (∀ j, j ≠ index.toNat / 4 → (ecc_deallocate mm index).bitmap j = mm.bitmap j) ∧
    (ecc_deallocate mm index).data = mm.data ∧
    (ecc_deallocate mm index).ecc = mm.ecc := by
  rw [ecc_deallocate_effect mm index h0 h1 hb]
  exact ⟨upd_same _ _ _, fun j hj => upd_other _ _ _ _ hj, rfl, rfl⟩

/-- C9 at a concrete state: after one allocation on the all-zero region, freeing
the unaligned offset 3 clears block 0. -/
theorem ecc_deallocate_valid_witness :
    (ecc_deallocate (ecc_allocate zero_region).1 3).bitmap ((3 : Int).toNat / 4) = 0 ∧
    (∀ j, j ≠ (3 : Int).toNat / 4 →
      (ecc_deallocate (ecc_allocate zero_region).1 3).bitmap j = (ecc_allocate zero_region).1.bitmap j) ∧
    (ecc_deallocate (ecc_allocate zero_region).1 3).data = (ecc_allocate zero_region).1.data ∧
    (ecc_deallocate (ecc_allocate zero_region).1 3).ecc = (ecc_allocate zero_region).1.ecc :=
  ecc_deallocate_valid (ecc_allocate zero_region).1 3 (by decide) (by decide) (by decide)

/-- C10: when `index < 0` or `index + size > 4096` (the sum not overflowing),
`ecc_write` returns with data, check codes and bitmap all unchanged. -/
theorem ecc_write_out_of_range_noop (mm : MemoryManager) (index size : Int) (p : Nat → Nat)
    (uninit : Nat → Nat) (hov : index + size ≤ INT_MAX)
    (h : index < 0 ∨ index + size > 4096) :
    ecc_write mm index p size uninit = some mm := by
  unfold ecc_write
  by_cases hi : index < 0
  · rw [if_pos hi]
  · rw [if_neg hi, if_neg (not_lt.mpr hov)]
    rcases h with h | h
    · exact absurd h hi
    · rw [if_pos (by simpa [DATA_SIZE] using h)]

/-- C10 at concrete inputs: a 10-byte write at offset 4090 changes nothing. -/
theorem ecc_write_out_of_range_noop_witness :
    ecc_write zero_region 4090 (fun _ => 255) 10 (fun _ => 0) = some zero_region :=
  ecc_write_out_of_range_noop zero_region 4090 10 (fun _ => 255) (fun _ => 0)
    (by decide) (Or.inr (by decide))

end ECC

namespace ECC

/-! ## Sequences of allocations -/

theorem ecc_allocate_at (mm : MemoryManager) (i : Nat) (hi : i < DATA_SIZE / 4)
    (hz : mm.bitmap i = 0) (hnz : ∀ j, j < i → mm.bitmap j ≠ 0) :
    ecc_allocate mm = ({ mm with bitmap := upd mm.bitmap i 1 }, ((i * 4 : Nat) : Int)) :=
  ecc_allocate_loop_found mm (DATA_SIZE / 4) 0 i (Nat.zero_le i) (by omega) hz
    (fun j _ hj => hnz j hj)

theorem ecc_allocate_seq_from (k : Nat) :
    ∀ (s : Nat) (mm : MemoryManager), s + k ≤ DATA_SIZE / 4 →
      (∀ j, j < s → mm.bitmap j ≠ 0) →
      (∀ j, s ≤ j → j < DATA_SIZE / 4 → mm.bitmap j = 0) →
      (ecc_allocate_seq k mm).1 = (List.range k).map (fun t => 4 * ((s + t : Nat) : Int)) ∧
      (∀ j, j < s + k → (ecc_allocate_seq k mm).2.bitmap j ≠ 0) ∧
      (∀ j, s + k ≤ j → j < DATA_SIZE / 4 → (ecc_allocate_seq k mm).2.bitmap j = 0) := by
  induction k with
  | zero =>
    intro s mm _ h1 h2
    exact ⟨rfl, h1, h2⟩
  | succ k ih =>
    intro s mm hk h1 h2
    have hstep := ecc_allocate_at mm s (by omega) (h2 s (le_refl s) (by omega)) h1
    have hnext := ih (s + 1) { mm with bitmap := upd mm.bitmap s 1 } (by omega)
      (by
        intro j hj
        by_cases hjs : j = s
        · subst hjs; simp [upd]
        · rw [show ({ mm with bitmap := upd mm.bitmap s 1 } : MemoryManager).bitmap j
              = upd mm.bitmap s 1 j from rfl, upd_other _ _ _ _ hjs]
          exact h1 j (by omega))
      (by
        intro j hj1 hj2
        have hjs : j ≠ s := by omega
        rw [show ({ mm with bitmap := upd mm.bitmap s 1 } : MemoryManager).bitmap j
              = upd mm.bitmap s 1 j from rfl, upd_other _ _ _ _ hjs]
        exact h2 j (by omega) hj2)
    obtain ⟨hl, hb1, hb2⟩ := hnext
    simp only [ecc_allocate_seq, hstep]
    refine ⟨?_, ?_, ?_⟩
    · rw [hl, List.range_succ_eq_map, List.map_cons, List.map_map]
      congr 1
      · push_cast; ring
      · apply List.map_congr_left
        intro t _
        simp only [Function.comp]
        push_cast; ring
    · intro j hj
      exact hb1 j (by omega)
    · intro j hj1 hj2
      exact hb2 j (by omega) hj2

/-- The bitmap after `ecc_allocate` differs from the one before in at most one
entry, which then holds 1. -/
theorem ecc_allocate_bitmap_cases (mm : MemoryManager) (j : Nat) :
    (ecc_allocate mm).1.bitmap j = mm.bitmap j ∨ (ecc_allocate mm).1.bitmap j = 1 := by
  have key : ∀ n s, (ecc_allocate_loop mm n s).1.bitmap j = mm.bitmap j ∨
      (ecc_allocate_loop mm n s).1.bitmap j = 1 := by
    intro n
    induction n with
    | zero => intro s; exact Or.inl rfl
    | succ n ih =>
      intro s
      by_cases hs : mm.bitmap s = 0
      · simp only [ecc_allocate_loop, hs, if_true]
        by_cases hj : j = s
        · right; subst hj; simp [upd]
        · left; simp [upd, hj]
      · simp only [ecc_allocate_loop, hs, if_false]
        exact ih (s + 1)
  exact key _ _

theorem ecc_deallocate_bitmap_cases (mm : MemoryManager) (index : Int) (j : Nat) :
    (ecc_deallocate mm index).bitmap j = mm.bitmap j ∨ (ecc_deallocate mm index).bitmap j = 0 := by
  unfold ecc_deallocate
  split
  · by_cases hj : j = index.toNat / 4
    · right; subst hj; simp [upd]
    · left; simp [upd, hj]
  · exact Or.inl rfl

/-- In a reachable state every bitmap entry is 0 (free) or 1 (allocated). -/
theorem Reachable.bitmap_flag {mm : MemoryManager} (h : Reachable mm) :
    ∀ i, i < DATA_SIZE / 4 → mm.bitmap i = 0 ∨ mm.bitmap i = 1 := by
  induction h with
  | init mm h0 => intro i hi; exact Or.inl (h0 i hi)
  | allocate _ ih =>
    intro i hi
    rcases ecc_allocate_bitmap_cases _ i with h | h
    · rw [h]; exact ih i hi
    · exact Or.inr h
  | deallocate index _ ih =>
    intro i hi
    rcases ecc_deallocate_bitmap_cases _ index i with h | h
    · rw [h]; exact ih i hi
    · exact Or.inl h

/-- C6: from an all-zero bitmap, 1024 consecutive calls of `ecc_allocate` return
0, 4, 8, ..., 4092 in this order (call `k` returns `4 * k`): pairwise distinct
multiples of 4 in `[0, 4092]`; the 1025th call returns `-1`. -/
theorem ecc_allocate_capacity (mm : MemoryManager)
    (h0 : ∀ i, i < DATA_SIZE / 4 → mm.bitmap i = 0) :
    (ecc_allocate_seq 1024 mm).1 = (List.range 1024).map (fun k : Nat => 4 * (k : Int)) ∧
    (ecc_allocate_seq 1024 mm).1.length = 1024 ∧
    (ecc_allocate_seq 1024 mm).1.Nodup ∧
    (∀ r, r ∈ (ecc_allocate_seq 1024 mm).1 → 0 ≤ r ∧ r ≤ 4092 ∧ r % 4 = 0) ∧
    (ecc_allocate (ecc_allocate_seq 1024 mm).2).2 = -1 := by
  obtain ⟨hl, hb, _⟩ := ecc_allocate_seq_from 1024 0 mm (by simp [DATA_SIZE])
    (fun j hj => absurd hj (Nat.not_lt_zero j)) (fun j _ hj => h0 j hj)
  have hl2 : (ecc_allocate_seq 1024 mm).1 = (List.range 1024).map (fun k : Nat => 4 * (k : Int)) := by
    rw [hl]
    apply List.map_congr_left
    intro t _
    simp
  refine ⟨hl2, ?_, ?_, ?_, ?_⟩
  · rw [hl2]; simp
  · rw [hl2]
    apply List.Nodup.map _ (List.nodup_range 1024)
    intro a b hab
    simp only at hab
    omega
  · intro r hr
    rw [hl2] at hr
    obtain ⟨t, ht, rfl⟩ := List.mem_map.mp hr
    have ht2 : t < 1024 := List.mem_range.mp ht
    omega
  · have hfull := ecc_allocate_loop_full (ecc_allocate_seq 1024 mm).2 (DATA_SIZE / 4) 0
      (fun j _ hj => hb j (by simpa [DATA_SIZE] using hj))
    unfold ecc_allocate
    rw [hfull]

/-- C6 on the all-zero region: the 1025th call of `ecc_allocate` fails. -/
theorem ecc_allocate_capacity_witness :
    (∀ i, i < DATA_SIZE / 4 → zero_region.bitmap i = 0) ∧
    (ecc_allocate (ecc_allocate_seq 1024 zero_region).2).2 = -1 :=
  ⟨fun _ _ => rfl, (ecc_allocate_capacity zero_region (fun _ _ => rfl)).2.2.2.2⟩

/-- C7: in every state reachable from an all-zero bitmap each block is free (0)
or allocated (1), and `ecc_allocate` never returns the offset of a block that
was allocated before the call.  If the block-aligned offset `x` is allocated,
then `ecc_deallocate(x)` followed by `ecc_allocate` returns a block offset in
`[0, x]`, and exactly `x` when every block below `x` is still allocated. -/
theorem ecc_allocate_no_double_allocation (mm : MemoryManager) (hr : Reachable mm) :
    (∀ i, i < DATA_SIZE / 4 → (mm.bitmap i = 0 ∨ mm.bitmap i = 1)) ∧
    (∀ i, i < DATA_SIZE / 4 → mm.bitmap i = 1 → (ecc_allocate mm).2 ≠ 4 * (i : Int)) ∧
    (∀ x : Int, 0 ≤ x → x < 4096 → x % 4 = 0 → mm.bitmap (x.toNat / 4) = 1 →
      0 ≤ (ecc_allocate (ecc_deallocate mm x)).2 ∧
      (ecc_allocate (ecc_deallocate mm x)).2 ≤ x ∧
      (ecc_allocate (ecc_deallocate mm x)).2 % 4 = 0 ∧
      ((∀ j, j < x.toNat / 4 → mm.bitmap j = 1) →
        (ecc_allocate (ecc_deallocate mm x)).2 = x)) := by
  refine ⟨hr.bitmap_flag, ?_, ?_⟩
  · intro i hi hset hret
    by_cases hex : ∃ j, j < DATA_SIZE / 4 ∧ mm.bitmap j = 0
    · classical
      have hfind := Nat.find_spec hex
      have hmin : ∀ j, j < Nat.find hex → mm.bitmap j ≠ 0 := by
        intro j hj hz
        exact Nat.find_min hex hj ⟨lt_trans hj hfind.1, hz⟩
      rw [ecc_allocate_at mm (Nat.find hex) hfind.1 hfind.2 hmin] at hret
      have heq : Nat.find hex = i := by
        simp only at hret
        push_cast at hret
        omega
      rw [heq] at hfind
      rw [hfind.2] at hset
      exact absurd hset (by decide)
    · have hfull := ecc_allocate_loop_full mm (DATA_SIZE / 4) 0
        (fun j _ hj hz => hex ⟨j, by omega, hz⟩)
      unfold ecc_allocate at hret
      rw [hfull] at hret
      simp only at hret
      omega
  · intro x hx0 hx1 hx4 hset
    have heff := ecc_deallocate_effect mm x hx0 hx1 hset
    have hfree : (ecc_deallocate mm x).bitmap (x.toNat / 4) = 0 := by
      rw [heff]; exact upd_same _ _ _
    have hframe : ∀ j, j ≠ x.toNat / 4 → (ecc_deallocate mm x).bitmap j = mm.bitmap j := by
      intro j hj
      rw [heff]; exact upd_other _ _ _ _ hj
    have hxlt : x.toNat / 4 < DATA_SIZE / 4 := by
      simp only [DATA_SIZE]; omega
    have hex : ∃ j, j < DATA_SIZE / 4 ∧ (ecc_deallocate mm x).bitmap j = 0 :=
      ⟨x.toNat / 4, hxlt, hfree⟩
    classical
    have hfind := Nat.find_spec hex
    have hmin : ∀ j, j < Nat.find hex → (ecc_deallocate mm x).bitmap j ≠ 0 := by
      intro j hj hz
      exact Nat.find_min hex hj ⟨lt_trans hj hfind.1, hz⟩
    have hle : Nat.find hex ≤ x.toNat / 4 := Nat.find_min' hex ⟨hxlt, hfree⟩
    rw [ecc_allocate_at (ecc_deallocate mm x) (Nat.find hex) hfind.1 hfind.2 hmin]
    simp only
    refine ⟨by omega, by omega, by omega, ?_⟩
    intro hbelow
    have heq : Nat.find hex = x.toNat / 4 := by
      by_contra hne
      have hlt : Nat.find hex < x.toNat / 4 := lt_of_le_of_ne hle hne
      have h1 := hbelow _ hlt
      have h2 := hframe _ hne
      rw [h2, h1] at hfind
      exact absurd hfind.2 (by decide)
    rw [heq]
    omega

/-- C7 at a concrete reachable state: after one allocation on the all-zero
region, freeing offset 0 and allocating again returns offset 0. -/
theorem ecc_allocate_no_double_allocation_witness :
    Reachable (ecc_allocate zero_region).1 ∧
    (ecc_allocate (ecc_deallocate (ecc_allocate zero_region).1 0)).2 = 0 :=
  ⟨Reachable.allocate (Reachable.init zero_region (fun _ _ => rfl)),
   ((ecc_allocate_no_double_allocation (ecc_allocate zero_region).1
      (Reachable.allocate (Reachable.init zero_region (fun _ _ => rfl)))).2.2
      0 (by decide) (by decide) (by decide) (by decide)).2.2.2
      (fun j hj => absurd hj (by simp))⟩

end ECC

namespace ECC

/-! ## The bit loops -/

theorem gather_bits_eq (data : Nat → Nat) (size i u0 u1 u2 u3 : Nat) :
    gather_bits data size i [0, 1, 2, 3] [u0, u1, u2, u3] =
      [if i < size * 8 then data_bit data i else u0,
       if i + 1 < size * 8 then data_bit data (i + 1) else u1,
       if i + 2 < size * 8 then data_bit data (i + 2) else u2,
       if i + 3 < size * 8 then data_bit data (i + 3) else u3] := by
  simp only [gather_bits, data_bit, Nat.add_zero, ge_iff_le]
  by_cases h0 : i < size * 8 <;> by_cases h1 : i + 1 < size * 8 <;>
    by_cases h2 : i + 2 < size * 8 <;> by_cases h3 : i + 3 < size * 8 <;>
    first
      | omega
      | simp [h0, h1, h2, h3, Nat.not_le.mpr, Nat.not_lt.mp, List.set]

theorem length_four (l : List Nat) (h : l.length = 4) : ∃ a b c d, l = [a, b, c, d] := by
  rcases l with _ | ⟨a, _ | ⟨b, _ | ⟨c, _ | ⟨d, _ | ⟨e, l⟩⟩⟩⟩⟩
  · simp at h
  · simp at h
  · simp at h
  · simp at h
  · exact ⟨a, b, c, d, rfl⟩
  · simp at h

theorem fresh_bits_length (uninit : Nat → Nat) : (fresh_bits uninit).length = 4 := rfl

theorem gather_bits_length (data : Nat → Nat) (size i : Nat) :
    ∀ (js held : List Nat), (gather_bits data size i js held).length = held.length := by
  intro js
  induction js with
  | nil => intro held; rfl
  | cons j js ih =>
    intro held
    simp only [gather_bits]
    split
    · rfl
    · rw [ih, List.length_set]

/-- A group that lies inside the region overwrites the whole array: what the
array held before does not matter. -/
theorem gather_bits_full (data : Nat → Nat) (size i : Nat) (held : List Nat)
    (hl : held.length = 4) (h : i + 3 < size * 8) :
    gather_bits data size i [0, 1, 2, 3] held =
      [data_bit data i, data_bit data (i + 1), data_bit data (i + 2), data_bit data (i + 3)] := by
  obtain ⟨u0, u1, u2, u3, rfl⟩ := length_four held hl
  rw [gather_bits_eq]
  simp [h, show i < size * 8 by omega, show i + 1 < size * 8 by omega,
    show i + 2 < size * 8 by omega]

theorem data_bit_congr (d e : Nat → Nat) (size b : Nat) (hb : b < size * 8)
    (h : ∀ k, k < size → d k = e k) : data_bit d b = data_bit e b := by
  unfold data_bit
  rw [h (b / 8) (by omega)]

theorem gather_bits_congr (d e : Nat → Nat) (size i : Nat) :
    ∀ (js held : List Nat),
      (∀ j, j ∈ js → i + j < size * 8 → data_bit d (i + j) = data_bit e (i + j)) →
      gather_bits d size i js held = gather_bits e size i js held := by
  intro js
  induction js with
  | nil => intro held _; rfl
  | cons j js ih =>
    intro held h
    simp only [gather_bits]
    split
    · rfl
    · rename_i hlt
      have hj := h j (List.mem_cons_self j js) (by omega)
      unfold data_bit at hj
      rw [hj]
      exact ih _ (fun j2 hj2 => h j2 (List.mem_cons_of_mem j hj2))

theorem scatter_bits_congr (bits : List Nat) (size i : Nat) :
    ∀ (js : List Nat) (d e : Nat → Nat), (∀ k, k < size → d k = e k) →
      ∀ k, k < size → scatter_bits bits size i js d k = scatter_bits bits size i js e k := by
  intro js
  induction js with
  | nil => intro d e h k hk; exact h k hk
  | cons j js ih =>
    intro d e h k hk
    simp only [scatter_bits]
    split
    · exact h k hk
    · rename_i hlt
      apply ih _ _ _ k hk
      intro x hx
      have hb : (i + j) / 8 < size := by omega
      by_cases hxb : x = (i + j) / 8
      · subst hxb
        simp only [upd, if_true]
        rw [h _ hb]
      · simp only [upd, hxb, if_false]
        exact h x hx

/-! ## The array `bits` from one iteration to the next -/

theorem carried_bits_length (data : Nat → Nat) (size : Nat) :
    ∀ (n g : Nat) (held : List Nat), (carried_bits data size g n held).length = held.length := by
  intro n
  induction n with
  | zero => intro g held; rfl
  | succ n ih =>
    intro g held
    simp only [carried_bits]
    rw [ih, gather_bits_length]

theorem carried_bits_snoc (data : Nat → Nat) (size : Nat) :
    ∀ (n g : Nat) (held : List Nat),
      carried_bits data size g (n + 1) held =
        gather_bits data size (7 * (g + n)) [0, 1, 2, 3] (carried_bits data size g n held) := by
  intro n
  induction n with
  | zero => intro g held; rfl
  | succ n ih =>
    intro g held
    rw [carried_bits, ih (g + 1)]
    rw [show g + 1 + n = g + (n + 1) by omega]
    rfl

/-- The array after a group that lies inside the region holds the bits of that
group. -/
theorem carried_bits_full (data : Nat → Nat) (size n g : Nat) (held : List Nat)
    (hl : held.length = 4) (h : 7 * (g + n) + 3 < size * 8) :
    carried_bits data size g (n + 1) held =
      [data_bit data (7 * (g + n)), data_bit data (7 * (g + n) + 1),
        data_bit data (7 * (g + n) + 2), data_bit data (7 * (g + n) + 3)] := by
  rw [carried_bits_snoc]
  exact gather_bits_full data size _ _ (by rw [carried_bits_length]; exact hl) h

end ECC

namespace ECC

/-! ## The loops of `ecc_write` and `ecc_read` -/

theorem slot_step (index i : Nat) : (index * 8 + (i + 7)) / 7 = (index * 8 + i) / 7 + 1 := by
  omega

theorem slot_bound (index size : Nat) (h : index + size ≤ 4096) :
    (index * 8 + 7 * 0) / 7 + (size * 8 + 6) / 7 ≤ ECC_SIZE := by
  have : ECC_SIZE = 4682 := by decide
  omega

theorem ec_calculate_of_length (l : List Nat) (hl : l.length = 4) :
    ec_calculate l = some ((ec_calculate l).getD 0) := by
  obtain ⟨a, b, c, d, rfl⟩ := length_four l hl
  rfl

/-- The effect of `ecc_write_loop`, started at group `g`: the loop runs to its
end, each of its `n` groups stores in its own slot the code of the array as
that group leaves it, and nothing else changes. -/
theorem ecc_write_loop_spec (index : Nat) (data : Nat → Nat) (size : Nat) :
    ∀ (n g : Nat) (held : List Nat) (mm : MemoryManager), held.length = 4 →
      (index * 8 + 7 * g) / 7 + n ≤ ECC_SIZE →
      ∃ mm2, ecc_write_loop index data size n (7 * g) held mm = some mm2 ∧
        mm2.data = mm.data ∧ mm2.bitmap = mm.bitmap ∧
        (∀ k, k < n → mm2.ecc ((index * 8 + 7 * g) / 7 + k) =
          (ec_calculate (carried_bits data size g (k + 1) held)).getD 0) ∧
        (∀ s, s < (index * 8 + 7 * g) / 7 ∨ (index * 8 + 7 * g) / 7 + n ≤ s →
          mm2.ecc s = mm.ecc s) := by
  intro n
  induction n with
  | zero =>
    intro g held mm _ _
    exact ⟨mm, rfl, rfl, rfl, fun k hk => absurd hk (Nat.not_lt_zero k), fun _ _ => rfl⟩
  | succ n ih =>
    intro g held mm hl hb
    have hslot : ¬ (index * 8 + 7 * g) / 7 ≥ ECC_SIZE := by omega
    have hstep : (index * 8 + 7 * (g + 1)) / 7 = (index * 8 + 7 * g) / 7 + 1 := by omega
    have hlen : (gather_bits data size (7 * g) [0, 1, 2, 3] held).length = 4 := by
      rw [gather_bits_length]; exact hl
    obtain ⟨mm2, hrun, hd, hbm, hcodes, hframe⟩ :=
      ih (g + 1) (gather_bits data size (7 * g) [0, 1, 2, 3] held)
        { mm with
          ecc := upd mm.ecc ((index * 8 + 7 * g) / 7)
            ((ec_calculate (gather_bits data size (7 * g) [0, 1, 2, 3] held)).getD 0) }
        hlen (by rw [hstep]; omega)
    refine ⟨mm2, ?_, hd, hbm, ?_, ?_⟩
    · simp only [ecc_write_loop, hslot, if_false]
      rw [ec_calculate_of_length _ hlen]
      simp only
      rw [show 7 * g + 7 = 7 * (g + 1) by ring]
      exact hrun
    · intro k hk
      rcases Nat.eq_zero_or_pos k with h0 | h0
      · subst h0
        rw [Nat.add_zero, hframe _ (Or.inl (by rw [hstep]; omega))]
        exact upd_same _ _ _
      · have := hcodes (k - 1) (by omega)
        rw [hstep] at this
        rw [show (index * 8 + 7 * g) / 7 + k = (index * 8 + 7 * g) / 7 + 1 + (k - 1) by omega,
          this, show k + 1 = (k - 1 + 1) + 1 by omega]
        rfl
    · intro s hs
      rw [hframe s (by rw [hstep]; omega)]
      exact upd_other _ _ _ _ (by omega)

/-- What the array held when the call entered its loop does not matter to
`ecc_write_loop`: the first group of a nonempty region lies inside it. -/
theorem ecc_write_loop_start (index : Nat) (data : Nat → Nat) (size n : Nat)
    (held held2 : List Nat) (mm : MemoryManager)
    (hl : held.length = 4) (hl2 : held2.length = 4) (hs : n = 0 ∨ 3 < size * 8) :
    ecc_write_loop index data size n 0 held mm = ecc_write_loop index data size n 0 held2 mm := by
  cases n with
  | zero => rfl
  | succ n =>
    have h3 : 0 + 3 < size * 8 := by omega
    simp only [ecc_write_loop, gather_bits_full data size 0 held hl h3,
      gather_bits_full data size 0 held2 hl2 h3]

theorem ecc_write_uninit (mm : MemoryManager) (index size : Int) (p : Nat → Nat)
    (u v : Nat → Nat) :
    ecc_write mm index p size u = ecc_write mm index p size v := by
  unfold ecc_write
  simp only
  rw [ecc_write_loop_start index.toNat p size.toNat _ (fresh_bits u) (fresh_bits v) _
    rfl rfl (by omega)]

/-- `ecc_check_and_correct` only reads the byte behind `ecc`, what it logs is
the syndrome, and the array keeps its length. -/
theorem ecc_check_and_correct_ecc (data : List Nat) (ecc : Nat) (r : Checked)
    (h : ecc_check_and_correct data ecc = some r) :
    r.ecc = ecc ∧ ecc_syndrome data ecc = some r.syndrome ∧ r.data.length = data.length := by
  unfold ecc_check_and_correct at h
  unfold ecc_syndrome
  split at h
  · simp only at h ⊢
    split at h
    · split at h
      · simp only [Option.some.injEq] at h
        subst h
        simp
      · exact absurd h (by simp)
    · simp only [Option.some.injEq] at h
      subst h
      simp
  · exact absurd h (by simp)

theorem scatter_bits_frame (bits : List Nat) (size i : Nat) :
    ∀ (js : List Nat) (data : Nat → Nat) (k : Nat), size ≤ k →
      scatter_bits bits size i js data k = data k := by
  intro js
  induction js with
  | nil => intro data k _; rfl
  | cons j js ih =>
    intro data k hk
    simp only [scatter_bits]
    split
    · rfl
    · rw [ih _ k hk]
      exact upd_other _ _ _ _ (by omega)

/-- The frame of `ecc_read_loop`: whenever the loop has a defined result, the
region is the one it started from and the caller's buffer is untouched from
byte `size` on; if no slot index reaches `ECC_SIZE`, one syndrome is logged per
iteration. -/
theorem ecc_read_loop_frame (index size : Nat) :
    ∀ (n i : Nat) (held : List Nat) (st r : ReadResult),
      ecc_read_loop index size n i held st = some r →
      r.mm = st.mm ∧ (∀ k, size ≤ k → r.data k = st.data k) ∧
      ((index * 8 + i) / 7 + n ≤ ECC_SIZE → r.syndromes.length = st.syndromes.length + n) := by
  intro n
  induction n with
  | zero =>
    intro i held st r h
    simp only [ecc_read_loop, Option.some.injEq] at h
    subst h
    exact ⟨rfl, fun _ _ => rfl, fun _ => rfl⟩
  | succ n ih =>
    intro i held st r h
    simp only [ecc_read_loop] at h
    split at h
    · rename_i hge
      simp only [Option.some.injEq] at h
      subst h
      exact ⟨rfl, fun _ _ => rfl, fun hb => by omega⟩
    · rename_i hlt
      split at h
      · exact absurd h (by simp)
      · rename_i c hc
        obtain ⟨hmm, hdata, hlen⟩ := ih (i + 7) _ _ r h
        obtain ⟨hecc, _, _⟩ := ecc_check_and_correct_ecc _ _ c hc
        refine ⟨?_, ?_, ?_⟩
        · rw [hmm, hecc, upd_self]
        · intro k hk
          rw [hdata k hk]
          exact scatter_bits_frame _ _ _ _ _ k hk
        · intro hb
          rw [hlen (by rw [slot_step]; omega)]
          simp only [List.length_append, List.length_singleton]
          omega

/-- Two runs of `ecc_read_loop` that start from the same region, the same
array, the same syndrome log and buffers that agree on the first `size` bytes
either are both undefined or end in states related in the same way. -/
theorem ecc_read_loop_congr (index size : Nat) :
    ∀ (n i : Nat) (held : List Nat) (s t : ReadResult),
      s.mm = t.mm → s.syndromes = t.syndromes → (∀ k, k < size → s.data k = t.data k) →
      (ecc_read_loop index size n i held s).map (read_view size) =
        (ecc_read_loop index size n i held t).map (read_view size) := by
  intro n
  induction n with
  | zero =>
    intro i held s t hmm hsyn hdata
    simp only [ecc_read_loop, Option.map_some', read_view, bytes, hsyn]
    congr 2
    apply List.map_congr_left
    intro k hk
    exact hdata k (List.mem_range.mp hk)
  | succ n ih =>
    intro i held s t hmm hsyn hdata
    have hbits : gather_bits s.data size i [0, 1, 2, 3] held =
        gather_bits t.data size i [0, 1, 2, 3] held :=
      gather_bits_congr s.data t.data size i _ _
        (fun j _ hlt => data_bit_congr _ _ size _ hlt hdata)
    simp only [ecc_read_loop, hbits, hmm]
    split
    · simp only [Option.map_some', read_view, bytes, hsyn]
      congr 2
      apply List.map_congr_left
      intro k hk
      exact hdata k (List.mem_range.mp hk)
    · split
      · rfl
      · rename_i r _
        apply ih (i + 7) _ _ _
        · rfl
        · simp only [hsyn]
        · exact scatter_bits_congr r.data size i [0, 1, 2, 3] s.data t.data hdata

/-- What the array held when the call entered its loop does not matter to
`ecc_read_loop`. -/
theorem ecc_read_loop_start (index size n : Nat) (held held2 : List Nat) (st : ReadResult)
    (hl : held.length = 4) (hl2 : held2.length = 4) (hs : n = 0 ∨ 3 < size * 8) :
    ecc_read_loop index size n 0 held st = ecc_read_loop index size n 0 held2 st := by
  cases n with
  | zero => rfl
  | succ n =>
    have h3 : 0 + 3 < size * 8 := by omega
    simp only [ecc_read_loop, gather_bits_full st.data size 0 held hl h3,
      gather_bits_full st.data size 0 held2 hl2 h3]

/-- For an in-range read, what the caller observes depends neither on the
previous contents of the output buffer nor on what the array `bits` held when
the call entered its loop. -/
theorem ecc_read_view_congr (mm : MemoryManager) (index size : Int) (out out2 : Nat → Nat)
    (u v : Nat → Nat) (hi : 0 ≤ index) (hs : 0 ≤ size) (hr : index + size ≤ 4096) :
    (ecc_read mm index out size u).map (read_view size.toNat) =
      (ecc_read mm index out2 size v).map (read_view size.toNat) := by
  unfold ecc_read
  have h1 : ¬ index < 0 := not_lt.mpr hi
  have h2 : ¬ index + size > INT_MAX := by simp only [INT_MAX]; omega
  have h3 : ¬ index + size > (DATA_SIZE : Int) := by simp only [DATA_SIZE]; omega
  have h4 : ¬ size < 0 := not_lt.mpr hs
  simp only [h1, h2, h3, h4, if_false]
  rw [ecc_read_loop_start index.toNat size.toNat _ (fresh_bits u) (fresh_bits v) _ rfl rfl
    (by omega)]
  exact ecc_read_loop_congr index.toNat size.toNat ((size.toNat * 8 + 6) / 7) 0 _
    ⟨mm, fun k => if k < size.toNat then mm.data (index.toNat + k) else out k, []⟩
    ⟨mm, fun k => if k < size.toNat then mm.data (index.toNat + k) else out2 k, []⟩
    rfl rfl (fun k hk => by simp only [hk, if_true])

end ECC

namespace ECC

/-! ## Properties of writing and reading -/

/-- C2 (the code at the failing inputs): after the write of the demonstration
payload at offset 0, flipping bit 0 of `data[0]` (element d0 of group 0) makes
the read compute syndrome 6 for group 0 and flipping bit 1 of `data[0]`
(element d1) makes it compute syndrome 5; either way `data[syndrome - 1]` lies
past the end of `bits` and the read has no defined result (the write before it
is well defined).  The stored code of group 0 is 5; on a seven-element array
the flipped elements are 5 and 4. -/
theorem write_flip_read_first_bits (out : Nat → Nat) (uninit_w uninit_r : Nat → Nat) :
    (ecc_write zero_region 0 (buffer [0x12, 0x34, 0x56, 0x78]) 4 uninit_w).isSome = true ∧
    write_flip_read zero_region 0 (buffer [0x12, 0x34, 0x56, 0x78]) 4 0 0 out uninit_w uninit_r
      = none ∧
    write_flip_read zero_region 0 (buffer [0x12, 0x34, 0x56, 0x78]) 4 0 1 out uninit_w uninit_r
      = none ∧
    ec_calculate [0, 1, 0, 0] = some 5 ∧
    ecc_check_and_correct [1, 1, 0, 0] 5 = none ∧
    ecc_check_and_correct [1, 1, 0, 0, 0, 0, 0] 5 = some ⟨[1, 1, 0, 0, 0, 1, 0], 5, 6⟩ ∧
    ecc_check_and_correct [0, 0, 0, 0] 5 = none ∧
    ecc_check_and_correct [0, 0, 0, 0, 0, 0, 0] 5 = some ⟨[0, 0, 0, 0, 1, 0, 0], 5, 5⟩ := by
  refine ⟨?_, ?_, ?_, by decide, by decide, by decide, by decide, by decide⟩
  · rw [ecc_write_uninit _ _ _ _ uninit_w (fun _ => 0)]
    decide
  · unfold write_flip_read
    rw [ecc_write_uninit _ _ _ _ uninit_w (fun _ => 0)]
    simp only [ecc_read_view_congr _ 0 4 out (fun _ => 0) uninit_r (fun _ => 0)
      (by decide) (by decide) (by decide)]
    decide
  · unfold write_flip_read
    rw [ecc_write_uninit _ _ _ _ uninit_w (fun _ => 0)]
    simp only [ecc_read_view_congr _ 0 4 out (fun _ => 0) uninit_r (fun _ => 0)
      (by decide) (by decide) (by decide)]
    decide

/-- C3: the demonstration of `main`.  On the all-zero region `ecc_allocate`
returns 0; after writing 0x12 0x34 0x56 0x78 at offset 0 and flipping bit 0 of
`data[2]`, `ecc_read` returns 0x12 0x34 0x56 0x78, and of its five groups
exactly the third has a nonzero syndrome, 3, which is the correction of
in-group position 2.  Neither the previous contents of the output buffer nor
what `bits` held when the calls entered their loops matter. -/
theorem demo_scenario (out : Nat → Nat) (uninit_w uninit_r : Nat → Nat) :
    (ecc_allocate zero_region).2 = 0 ∧
    write_flip_read (ecc_allocate zero_region).1 0 (buffer [0x12, 0x34, 0x56, 0x78]) 4 2 0
      out uninit_w uninit_r = some ([0x12, 0x34, 0x56, 0x78], [0, 0, 3, 0, 0]) := by
  refine ⟨by decide, ?_⟩
  unfold write_flip_read
  rw [ecc_write_uninit _ _ _ _ uninit_w (fun _ => 0)]
  simp only [ecc_read_view_congr _ 0 4 out (fun _ => 0) uninit_r (fun _ => 0)
    (by decide) (by decide) (by decide)]
  decide

end ECC

namespace ECC

/-! ## Out-of-range reads and the frame of a read -/

/-- C11: when `index < 0` or `index + size > 4096` (the sum not overflowing),
`ecc_read` returns with the caller's buffer exactly as supplied and the region
unchanged; no group is checked. -/
theorem ecc_read_out_of_range_noop (mm : MemoryManager) (index size : Int) (out : Nat → Nat)
    (uninit : Nat → Nat) (hov : index + size ≤ INT_MAX)
    (h : index < 0 ∨ index + size > 4096) :
    ecc_read mm index out size uninit = some ⟨mm, out, []⟩ := by
  unfold ecc_read
  by_cases hi : index < 0
  · rw [if_pos hi]
  · rw [if_neg hi, if_neg (not_lt.mpr hov)]
    rcases h with h | h
    · exact absurd h hi
    · rw [if_pos (by simpa [DATA_SIZE] using h)]

/-- C11 at the input of the specification: a 10-byte read at offset 4090. -/
theorem ecc_read_out_of_range_noop_witness :
    ecc_read zero_region 4090 (buffer [1, 2, 3]) 10 (fun _ => 0) =
      some ⟨zero_region, buffer [1, 2, 3], []⟩ :=
  ecc_read_out_of_range_noop zero_region 4090 10 (buffer [1, 2, 3]) (fun _ => 0)
    (by decide) (Or.inr (by decide))

end ECC

namespace ECC

/-! ## The codec -/

theorem parity_bit (b : Nat) (hb : b < 2) : parity b = b := by
  interval_cases b <;> rfl

set_option maxRecDepth 100000 in
theorem parity_eq_spec_parity : ∀ x, x < 256 → parity x = spec_parity x := by
  decide

theorem ec_calculate_eq (d0 d1 d2 d3 : Nat) :
    ec_calculate [d0, d1, d2, d3] = some (spec_encode (d0 % 2) (d1 % 2) (d2 % 2) (d3 % 2)) := by
  simp only [ec_calculate, spec_encode, Nat.and_one_is_mod]
  have e0 : d0 % 2 < 2 := Nat.mod_lt _ (by decide)
  have e1 : d1 % 2 < 2 := Nat.mod_lt _ (by decide)
  have e2 : d2 % 2 < 2 := Nat.mod_lt _ (by decide)
  have e3 : d3 % 2 < 2 := Nat.mod_lt _ (by decide)
  generalize d0 % 2 = x0 at e0 ⊢
  generalize d1 % 2 = x1 at e1 ⊢
  generalize d2 % 2 = x2 at e2 ⊢
  generalize d3 % 2 = x3 at e3 ⊢
  interval_cases x0 <;> interval_cases x1 <;> interval_cases x2 <;> interval_cases x3 <;> rfl

theorem spec_encode_le (x0 x1 x2 x3 : Nat) (e0 : x0 < 2) (e1 : x1 < 2) (e2 : x2 < 2)
    (e3 : x3 < 2) : spec_encode x0 x1 x2 x3 ≤ 7 := by
  interval_cases x0 <;> interval_cases x1 <;> interval_cases x2 <;> interval_cases x3 <;> decide

/-- C14: for every four bytes, `ec_calculate` stores
`c = (p1 << 2) | (p2 << 1) | p3` with `p1 = d0 xor d1 xor d3`,
`p2 = d0 xor d2 xor d3`, `p3 = d1 xor d2 xor d3`, where `di` is the
least-significant bit of `data[i]`.  So `c` is at most 7 and is the code of
the four least-significant bits alone.  `parity` returns a bit unchanged and
is the XOR of the eight bits of every byte. -/
theorem ec_calculate_spec (d0 d1 d2 d3 : Nat) :
    ec_calculate [d0, d1, d2, d3] = some (spec_encode (d0 % 2) (d1 % 2) (d2 % 2) (d3 % 2)) ∧
    spec_encode (d0 % 2) (d1 % 2) (d2 % 2) (d3 % 2) ≤ 7 ∧
    ec_calculate [d0, d1, d2, d3] = ec_calculate [d0 % 2, d1 % 2, d2 % 2, d3 % 2] ∧
    parity 0 = 0 ∧ parity 1 = 1 ∧
    (∀ x, parity (x % 256) = spec_parity (x % 256)) := by
  refine ⟨ec_calculate_eq d0 d1 d2 d3, ?_, ?_, rfl, rfl, ?_⟩
  · exact spec_encode_le _ _ _ _ (Nat.mod_lt _ (by decide)) (Nat.mod_lt _ (by decide))
      (Nat.mod_lt _ (by decide)) (Nat.mod_lt _ (by decide))
  · rw [ec_calculate_eq, ec_calculate_eq]
    simp only [Nat.mod_mod]
  · intro x
    exact parity_eq_spec_parity _ (Nat.mod_lt _ (by decide))

/-- The syndrome is the recomputed code xor the low three bits of the stored byte. -/
theorem ecc_syndrome_eq (d0 d1 d2 d3 c : Nat) :
    ecc_syndrome [d0, d1, d2, d3] c =
      some (spec_encode (d0 % 2) (d1 % 2) (d2 % 2) (d3 % 2) ^^^ (c &&& 7)) := by
  have hc : ∀ c : Nat, (c >>> 2) &&& 1 = ((c % 8) >>> 2) &&& 1 ∧
      (c >>> 1) &&& 1 = ((c % 8) >>> 1) &&& 1 ∧ c &&& 1 = (c % 8) &&& 1 ∧ c &&& 7 = c % 8 := by
    intro c
    refine ⟨?_, ?_, ?_, ?_⟩
    · simp only [Nat.shiftRight_eq_div_pow, Nat.and_one_is_mod]; omega
    · simp only [Nat.shiftRight_eq_div_pow, Nat.and_one_is_mod]; omega
    · simp only [Nat.and_one_is_mod]; omega
    · exact Nat.and_pow_two_sub_one_eq_mod c 3
  obtain ⟨h2, h1, h0, h7⟩ := hc c
  simp only [ecc_syndrome, spec_encode, h2, h1, h0, h7, Nat.and_one_is_mod]
  have e0 : d0 % 2 < 2 := Nat.mod_lt _ (by decide)
  have e1 : d1 % 2 < 2 := Nat.mod_lt _ (by decide)
  have e2 : d2 % 2 < 2 := Nat.mod_lt _ (by decide)
  have e3 : d3 % 2 < 2 := Nat.mod_lt _ (by decide)
  have ec : c % 8 < 8 := Nat.mod_lt _ (by decide)
  generalize d0 % 2 = x0 at e0 ⊢
  generalize d1 % 2 = x1 at e1 ⊢
  generalize d2 % 2 = x2 at e2 ⊢
  generalize d3 % 2 = x3 at e3 ⊢
  generalize c % 8 = y at ec ⊢
  interval_cases x0 <;> interval_cases x1 <;> interval_cases x2 <;> interval_cases x3 <;>
    interval_cases y <;> rfl

/-- What `ecc_check_and_correct` does on a group of four elements, by syndrome. -/
theorem ecc_check_and_correct_eq (d0 d1 d2 d3 c s : Nat)
    (hs : ecc_syndrome [d0, d1, d2, d3] c = some s) :
    ecc_check_and_correct [d0, d1, d2, d3] c =
      if s ≠ 0 then
        if s - 1 < 4 then
          some ⟨[d0, d1, d2, d3].set (s - 1) (([d0, d1, d2, d3].getD (s - 1) 0 ^^^ 1) % 256), c, s⟩
        else none
      else some ⟨[d0, d1, d2, d3], c, s⟩ := by
  simp only [ecc_syndrome, Option.some.injEq] at hs
  subst hs
  rfl

end ECC

namespace ECC

/-- C15: on a group of four bit values `d` and a stored byte `c`, the syndrome
of `ecc_check_and_correct` is `ec_calculate(d) xor (c & 7)`.  If it is 0, as it
is when `c` is the code of `d`, the group comes back unchanged; if it is `s` in
`[1,3]` the group comes back with exactly element `s - 1` flipped.  The stored
byte is never changed. -/
theorem ecc_check_and_correct_low_syndromes (d0 d1 d2 d3 c : Nat)
    (h0 : d0 < 2) (h1 : d1 < 2) (h2 : d2 < 2) (h3 : d3 < 2) :
    ec_calculate [d0, d1, d2, d3] = some (spec_encode d0 d1 d2 d3) ∧
    ecc_syndrome [d0, d1, d2, d3] c = some (spec_encode d0 d1 d2 d3 ^^^ (c &&& 7)) ∧
    (spec_encode d0 d1 d2 d3 ^^^ (c &&& 7) = 0 →
      ecc_check_and_correct [d0, d1, d2, d3] c = some ⟨[d0, d1, d2, d3], c, 0⟩) ∧
    (c = spec_encode d0 d1 d2 d3 →
      ecc_check_and_correct [d0, d1, d2, d3] c = some ⟨[d0, d1, d2, d3], c, 0⟩) ∧
    (1 ≤ spec_encode d0 d1 d2 d3 ^^^ (c &&& 7) → spec_encode d0 d1 d2 d3 ^^^ (c &&& 7) ≤ 3 →
      ecc_check_and_correct [d0, d1, d2, d3] c =
        some ⟨flip_at [d0, d1, d2, d3] ((spec_encode d0 d1 d2 d3 ^^^ (c &&& 7)) - 1), c,
          spec_encode d0 d1 d2 d3 ^^^ (c &&& 7)⟩) ∧
    (∀ r, ecc_check_and_correct [d0, d1, d2, d3] c = some r → r.ecc = c) := by
  have hcalc := ec_calculate_eq d0 d1 d2 d3
  have hsyn := ecc_syndrome_eq d0 d1 d2 d3 c
  rw [Nat.mod_eq_of_lt h0, Nat.mod_eq_of_lt h1, Nat.mod_eq_of_lt h2, Nat.mod_eq_of_lt h3]
    at hcalc hsyn
  have hchk := ecc_check_and_correct_eq d0 d1 d2 d3 c _ hsyn
  have hzero : spec_encode d0 d1 d2 d3 ^^^ (c &&& 7) = 0 →
      ecc_check_and_correct [d0, d1, d2, d3] c = some ⟨[d0, d1, d2, d3], c, 0⟩ := by
    intro hz
    rw [hchk, hz]
    rfl
  refine ⟨hcalc, hsyn, hzero, ?_, ?_, ?_⟩
  · intro hc
    apply hzero
    have hle := spec_encode_le d0 d1 d2 d3 h0 h1 h2 h3
    rw [hc, Nat.and_pow_two_sub_one_eq_mod _ 3, Nat.mod_eq_of_lt (by omega), Nat.xor_self]
  · intro hlo hhi
    rw [hchk]
    generalize spec_encode d0 d1 d2 d3 ^^^ (c &&& 7) = s at hlo hhi ⊢
    interval_cases s <;> interval_cases d0 <;> interval_cases d1 <;> interval_cases d2 <;>
      interval_cases d3 <;> rfl
  · intro r hr
    exact (ecc_check_and_correct_ecc _ _ r hr).1

/-- C15 at a concrete group: 0,1,1,0 against the stored byte 0x0D (low bits 5). -/
theorem ecc_check_and_correct_low_syndromes_witness :
    ecc_syndrome [0, 1, 1, 0] 0x0D = some (spec_encode 0 1 1 0 ^^^ (0x0D &&& 7)) ∧
    ecc_check_and_correct [0, 1, 1, 0] 0x0D = some ⟨[0, 1, 0, 0], 0x0D, 3⟩ :=
  ⟨(ecc_check_and_correct_low_syndromes 0 1 1 0 0x0D (by decide) (by decide) (by decide)
      (by decide)).2.1,
   (ecc_check_and_correct_low_syndromes 0 1 1 0 0x0D (by decide) (by decide) (by decide)
      (by decide)).2.2.2.2.1 (by decide) (by decide)⟩

/-- C16: for a group `d` of four bit values with its code `ec_calculate(d)`, the
syndrome of `d` with element `j` flipped is 6 for `j = 0`, 5 for `j = 1`, 3 for
`j = 2` and 7 for `j = 3`.  So `syndrome - 1` is the flipped element only for
`j = 2`, where the group is repaired; for the other three it is 5, 4 or 6,
outside the four-element group. -/
theorem single_bit_syndromes (d0 d1 d2 d3 : Nat)
    (h0 : d0 < 2) (h1 : d1 < 2) (h2 : d2 < 2) (h3 : d3 < 2) :
    ((ec_calculate [d0, d1, d2, d3]).bind fun c =>
      ecc_syndrome (flip_at [d0, d1, d2, d3] 0) c) = some 6 ∧
    ((ec_calculate [d0, d1, d2, d3]).bind fun c =>
      ecc_syndrome (flip_at [d0, d1, d2, d3] 1) c) = some 5 ∧
    ((ec_calculate [d0, d1, d2, d3]).bind fun c =>
      ecc_syndrome (flip_at [d0, d1, d2, d3] 2) c) = some 3 ∧
    ((ec_calculate [d0, d1, d2, d3]).bind fun c =>
      ecc_syndrome (flip_at [d0, d1, d2, d3] 3) c) = some 7 ∧
    ((ec_calculate [d0, d1, d2, d3]).bind fun c =>
      (ecc_check_and_correct (flip_at [d0, d1, d2, d3] 2) c).map fun r => r.data)
        = some [d0, d1, d2, d3] ∧
    ((ec_calculate [d0, d1, d2, d3]).bind fun c =>
      ecc_check_and_correct (flip_at [d0, d1, d2, d3] 0) c) = none ∧
    ((ec_calculate [d0, d1, d2, d3]).bind fun c =>
      ecc_check_and_correct (flip_at [d0, d1, d2, d3] 1) c) = none ∧
    ((ec_calculate [d0, d1, d2, d3]).bind fun c =>
      ecc_check_and_correct (flip_at [d0, d1, d2, d3] 3) c) = none := by
  interval_cases d0 <;> interval_cases d1 <;> interval_cases d2 <;> interval_cases d3 <;>
    decide

/-- C16 at the group 1,0,1,1. -/
theorem single_bit_syndromes_witness :
    ((ec_calculate [1, 0, 1, 1]).bind fun c => ecc_syndrome (flip_at [1, 0, 1, 1] 0) c)
      = some 6 ∧
    ((ec_calculate [1, 0, 1, 1]).bind fun c => ecc_syndrome (flip_at [1, 0, 1, 1] 2) c)
      = some 3 :=
  ⟨(single_bit_syndromes 1 0 1 1 (by decide) (by decide) (by decide) (by decide)).1,
   (single_bit_syndromes 1 0 1 1 (by decide) (by decide) (by decide) (by decide)).2.2.1⟩

end ECC

namespace ECC

/-! ## Postcondition of a write, slot sharing and slot bounds -/

/-- An in-range `ecc_write` is defined, and its loop stores the code of every
group, in the slot `(8 * index) / 7 + g` of group `g`. -/
theorem ecc_write_effect (mm : MemoryManager) (index size : Nat) (p : Nat → Nat)
    (uninit : Nat → Nat) (h : index + size ≤ 4096) :
    ∃ mm2, ecc_write mm index p size uninit = some mm2 ∧
      mm2.data = (fun a => if index ≤ a ∧ a < index + size then p (a - index) else mm.data a) ∧
      mm2.bitmap = mm.bitmap ∧
      (∀ g, g < (size * 8 + 6) / 7 →
        mm2.ecc ((index * 8) / 7 + g) = group_code p size uninit g) ∧
      (∀ s, s < (index * 8) / 7 ∨ (index * 8) / 7 + (size * 8 + 6) / 7 ≤ s →
        mm2.ecc s = mm.ecc s) := by
  have h1 : ¬ (index : Int) < 0 := by omega
  have h2 : ¬ (index : Int) + (size : Int) > INT_MAX := by simp only [INT_MAX]; omega
  have h3 : ¬ (index : Int) + (size : Int) > (DATA_SIZE : Int) := by
    simp only [DATA_SIZE]; omega
  have h4 : ¬ (size : Int) < 0 := by omega
  obtain ⟨mm2, hrun, hd, hbm, hcodes, hframe⟩ :=
    ecc_write_loop_spec index p size ((size * 8 + 6) / 7) 0 (fresh_bits uninit)
      { mm with data := fun a =>
          if index ≤ a ∧ a < index + size then p (a - index) else mm.data a }
      rfl (slot_bound _ _ h)
  refine ⟨mm2, ?_, hd, hbm, ?_, ?_⟩
  · unfold ecc_write
    simp only [h1, h2, h3, h4, if_false, Int.toNat_ofNat]
    exact hrun
  · intro g hg
    have := hcodes g hg
    simpa only [Nat.mul_zero, Nat.add_zero, group_code] using this
  · intro s hs
    have := hframe s (by simpa only [Nat.mul_zero, Nat.add_zero] using hs)
    simpa only using this

/-- C13: after an in-range `ecc_write`, (a) `data[index + k] == p[k]` for every
`k < size` and every other data byte is unchanged, (b) the bitmap is unchanged,
(c) for every group `g` with `7 * g + 3 < 8 * size` the slot
`(8 * index + 7 * g) / 7` holds the code, at most 7, of the payload bits
`7 * g` to `7 * g + 3`, and (d) every slot outside
`[(8 * index) / 7, (8 * index + 8 * size - 1) / 7]` is unchanged. -/
theorem ecc_write_postcondition (mm : MemoryManager) (index size : Nat) (p : Nat → Nat)
    (uninit : Nat → Nat) (h : index + size ≤ 4096) :
    ∃ mm2, ecc_write mm index p size uninit = some mm2 ∧
      (∀ k, k < size → mm2.data (index + k) = p k) ∧
      (∀ a, a < index ∨ index + size ≤ a → mm2.data a = mm.data a) ∧
      mm2.bitmap = mm.bitmap ∧
      (∀ g, 7 * g + 3 < 8 * size →
        ec_calculate [data_bit p (7 * g), data_bit p (7 * g + 1), data_bit p (7 * g + 2),
          data_bit p (7 * g + 3)] = some (mm2.ecc ((8 * index + 7 * g) / 7)) ∧
        mm2.ecc ((8 * index + 7 * g) / 7) ≤ 7) ∧
      (∀ s, s < (8 * index) / 7 ∨ (8 * index + 8 * size - 1) / 7 < s →
        mm2.ecc s = mm.ecc s) := by
  obtain ⟨mm2, hrun, hd, hbm, hcodes, hframe⟩ := ecc_write_effect mm index size p uninit h
  refine ⟨mm2, hrun, ?_, ?_, hbm, ?_, ?_⟩
  · intro k hk
    rw [hd]
    simp only
    rw [if_pos ⟨by omega, by omega⟩]
    congr 1
    omega
  · intro a ha
    rw [hd]
    simp only
    rw [if_neg (by omega)]
  · intro g hg
    have hslot : (8 * index + 7 * g) / 7 = (index * 8) / 7 + g := by omega
    have hcode := hcodes g (by omega)
    have hfull := carried_bits_full p size g 0 (fresh_bits uninit) rfl
      (by rw [Nat.zero_add]; omega)
    rw [Nat.zero_add] at hfull
    have hcalc : ec_calculate [data_bit p (7 * g), data_bit p (7 * g + 1),
        data_bit p (7 * g + 2), data_bit p (7 * g + 3)] = some (group_code p size uninit g) := by
      unfold group_code
      rw [hfull]
      exact ec_calculate_of_length _ rfl
    rw [hslot, hcode]
    refine ⟨hcalc, ?_⟩
    rw [ec_calculate_eq] at hcalc
    simp only [Option.some.injEq] at hcalc
    rw [← hcalc]
    exact spec_encode_le _ _ _ _ (Nat.mod_lt _ (by decide)) (Nat.mod_lt _ (by decide))
      (Nat.mod_lt _ (by decide)) (Nat.mod_lt _ (by decide))
  · intro s hs
    exact hframe s (by omega)

/-- C13 at the payload of `main`: slot 0 holds the code 5 of the bits 0,1,0,0. -/
theorem ecc_write_postcondition_witness :
    ∃ mm2, ecc_write zero_region (0 : Nat) (buffer [0x12, 0x34, 0x56, 0x78]) (4 : Nat)
        (fun _ => 0) = some mm2 ∧
      mm2.data (0 + 3) = 0x78 ∧ mm2.ecc ((8 * 0 + 7 * 0) / 7) ≤ 7 := by
  obtain ⟨mm2, hrun, hdata, _, _, hcode, _⟩ :=
    ecc_write_postcondition zero_region 0 4 (buffer [0x12, 0x34, 0x56, 0x78]) (fun _ => 0)
      (by decide)
  exact ⟨mm2, hrun, hdata 3 (by decide), (hcode 0 (by decide)).2⟩

/-- C19: on the all-zero region, writing 0,0,0,0 at offset 0, then 0x04,0,0,0
at offset 4, then reading four bytes at offset 0, with no data bit corrupted,
returns 0,0,0,0x40: the last group of the first region has syndrome 3.  Group 4
of the region at offset 0 and group 0 of the region at offset 4 both use slot
4.  Without the second write the same read returns 0,0,0,0. -/
theorem slot_shared_between_regions (out : Nat → Nat)
    (uninit_1 uninit_2 uninit_r : Nat → Nat) :
    write_write_read zero_region 0 (buffer [0, 0, 0, 0]) 4 4 (buffer [0x04, 0, 0, 0]) 4 out
      uninit_1 uninit_2 uninit_r = some ([0, 0, 0, 0x40], [0, 0, 0, 0, 3]) ∧
    [0, 0, 0, 0x40] ≠ bytes (buffer [0, 0, 0, 0]) 4 ∧
    (8 * 0 + 28) / 7 = 4 ∧ (8 * 4 + 0) / 7 = 4 ∧
    write_read zero_region 0 (buffer [0, 0, 0, 0]) 4 out uninit_1 uninit_r
      = some ([0, 0, 0, 0], [0, 0, 0, 0, 0]) := by
  refine ⟨?_, by decide, by decide, by decide, ?_⟩
  · unfold write_write_read
    rw [ecc_write_uninit _ _ _ _ uninit_1 (fun _ => 0)]
    simp only [ecc_write_uninit _ 4 4 _ uninit_2 (fun _ => 0),
      ecc_read_view_congr _ 0 4 out (fun _ => 0) uninit_r (fun _ => 0)
        (by decide) (by decide) (by decide)]
    decide
  · unfold write_read
    rw [ecc_write_uninit _ _ _ _ uninit_1 (fun _ => 0)]
    simp only [ecc_read_view_congr _ 0 4 out (fun _ => 0) uninit_r (fun _ => 0)
      (by decide) (by decide) (by decide)]
    decide

/-- C20: for an in-range region and every loop value `i` (a multiple of 7 below
`8 * size`), the slot `(8 * index + i) / 7` is below `ECC_SIZE = 4682` and
equals `(8 * index) / 7 + i / 7`, so two loop values with the same slot are
equal.  Hence the test `ecc_index >= ECC_SIZE` never leaves the loop: the write
is defined and stores the code of every group in the slot of that group, and a
read that is defined has logged one syndrome per group. -/
theorem ecc_slot_in_bounds (mm : MemoryManager) (index size : Nat) (p out : Nat → Nat)
    (uninit : Nat → Nat) (h : index + size ≤ 4096) :
    ECC_SIZE = 4682 ∧
    (∀ i, i % 7 = 0 → i < 8 * size →
      (8 * index + i) / 7 < ECC_SIZE ∧ (8 * index + i) / 7 = (8 * index) / 7 + i / 7) ∧
    (∀ i j, i % 7 = 0 → j % 7 = 0 → (8 * index + i) / 7 = (8 * index + j) / 7 → i = j) ∧
    (∃ mm2, ecc_write mm index p size uninit = some mm2 ∧
      ∀ g, g < (size * 8 + 6) / 7 →
        mm2.ecc ((8 * index + 7 * g) / 7) = group_code p size uninit g) ∧
    (∀ r, ecc_read mm index out size uninit = some r →
      r.syndromes.length = (size * 8 + 6) / 7) := by
  have hE : ECC_SIZE = 4682 := by decide
  refine ⟨hE, ?_, ?_, ?_, ?_⟩
  · intro i h7 hi
    constructor <;> omega
  · intro i j hi hj hij
    omega
  · obtain ⟨mm2, hrun, _, _, hcodes, _⟩ := ecc_write_effect mm index size p uninit h
    refine ⟨mm2, hrun, ?_⟩
    intro g hg
    rw [show (8 * index + 7 * g) / 7 = (index * 8) / 7 + g by omega]
    exact hcodes g hg
  · intro r hr
    have h1 : ¬ (index : Int) < 0 := by omega
    have h2 : ¬ (index : Int) + (size : Int) > INT_MAX := by simp only [INT_MAX]; omega
    have h3 : ¬ (index : Int) + (size : Int) > (DATA_SIZE : Int) := by
      simp only [DATA_SIZE]; omega
    have h4 : ¬ (size : Int) < 0 := by omega
    unfold ecc_read at hr
    simp only [h1, h2, h3, h4, if_false, Int.toNat_ofNat] at hr
    have := (ecc_read_loop_frame index size _ 0 _ _ r hr).2.2
      (by have := slot_bound _ _ h; simpa only [Nat.mul_zero] using this)
    simpa using this

/-- C20 at the largest region: the last group of a 4096-byte region at offset 0
uses slot 4681. -/
theorem ecc_slot_in_bounds_witness :
    (0 : Nat) + 4096 ≤ 4096 ∧ (8 * 0 + 32767) / 7 < ECC_SIZE ∧
    (8 * 0 + 32767) / 7 = (8 * 0) / 7 + 32767 / 7 :=
  ⟨by decide,
   ((ecc_slot_in_bounds zero_region 0 4096 (fun _ => 0) (fun _ => 0) (fun _ => 0)
      (by decide)).2.1 32767 (by decide) (by decide))⟩

end ECC

namespace ECC

/-! ## Bit-level facts about a flipped data bit -/

end ECC

namespace ECC

/-! ## Reads of a region with one flipped data bit -/

end ECC

namespace ECC

/-! ## Round trip, unprotected bits and third-bit errors -/

end ECC

namespace ECC

end ECC

namespace ECC

end ECC
